import Mathlib

/-!
Verification of the claude-code-semantic-memory repository.

The repository couples a small semantic-memory daemon (store / recall /
health over learning records with vector embeddings) with Claude Code
hook scripts.  The daemon itself (`daemon/server.py`) is not present in
the source tree; its contract is modelled from the specification, while
the hook scripts (`hooks/pre-compact.sh` chunking, the PreToolUse tool
filter) are embedded directly from their source.
-/

namespace SemMem

/-! ## Vector similarity engine

Modelled from the spec: `daemon/server.py` is absent from the
repository; the similarity engine is the spec's §4.2.  Scores are
rationals; the similarity function itself is a parameter (the spec
treats the embedding model as external and the claims do not depend on
the cosine formula). -/

/-- An embedding vector. -/
abbrev Vec := List ℚ

/-- A scored candidate: the candidate paired with its similarity score. -/
abbrev Scored (α : Type) := α × ℚ

/-- Insert one scored candidate into a descending-sorted list, after every
strictly larger score and before the first score that is `≤` its own
(so an element inserted for an earlier input position stays ahead of
equal scores coming from later positions: a stable descending sort). -/
def insertDesc {α : Type} (x : Scored α) : List (Scored α) → List (Scored α)
  | [] => [x]
  | q :: rest => if x.2 < q.2 then q :: insertDesc x rest else x :: q :: rest

/-- Stable descending insertion sort by score. -/
def sortDesc {α : Type} : List (Scored α) → List (Scored α)
  | [] => []
  | x :: xs => insertDesc x (sortDesc xs)

/-- Modelled from the spec: score every candidate with the similarity
function against the query vector. -/
def scoreAll {α : Type} (sim : Vec → Vec → ℚ) (query : Vec)
    (candidates : List (α × Vec)) : List (Scored α) :=
  candidates.map (fun c => (c.1, sim query c.2))

/-- Modelled from the spec (§4.2, `daemon/server.py` absent): `topK`
computes similarity for every candidate, discards any with score below
`minScore`, sorts descending by score (stable), truncates to `k`. -/
def topK {α : Type} (sim : Vec → Vec → ℚ) (query : Vec)
    (candidates : List (α × Vec)) (k : ℕ) (minScore : ℚ) : List (Scored α) :=
  (sortDesc ((scoreAll sim query candidates).filter (fun p => minScore ≤ p.2))).take k

/-! ### Properties of the stable sort -/

theorem insertDesc_perm {α : Type} (x : Scored α) (l : List (Scored α)) :
    List.Perm (insertDesc x l) (x :: l) := by
  induction l with
  | nil => simp [insertDesc]
  | cons q rest ih =>
      by_cases h : x.2 < q.2
      · simp only [insertDesc, if_pos h]
        exact (ih.cons q).trans (List.Perm.swap x q rest)
      · simp [insertDesc, if_neg h]

theorem sortDesc_perm {α : Type} (l : List (Scored α)) :
    List.Perm (sortDesc l) l := by
  induction l with
  | nil => simp [sortDesc]
  | cons x xs ih =>
      exact (insertDesc_perm x (sortDesc xs)).trans (ih.cons x)

theorem mem_insertDesc {α : Type} {y x : Scored α} {l : List (Scored α)} :
    y ∈ insertDesc x l ↔ y = x ∨ y ∈ l := by
  constructor
  · intro h
    have := (insertDesc_perm x l).mem_iff.mp h
    simpa using this
  · intro h
    apply (insertDesc_perm x l).mem_iff.mpr
    simpa using h

theorem insertDesc_sorted {α : Type} (x : Scored α) {l : List (Scored α)}
    (hl : List.Pairwise (fun a b : Scored α => b.2 ≤ a.2) l) :
    List.Pairwise (fun a b : Scored α => b.2 ≤ a.2) (insertDesc x l) := by
  induction l with
  | nil => simp [insertDesc]
  | cons q rest ih =>
      rcases List.pairwise_cons.mp hl with ⟨hq, hrest⟩
      by_cases h : x.2 < q.2
      · simp only [insertDesc, if_pos h]
        refine List.pairwise_cons.mpr ⟨?_, ih hrest⟩
        intro y hy
        rcases mem_insertDesc.mp hy with rfl | hy'
        · exact le_of_lt h
        · exact hq y hy'
      · simp only [insertDesc, if_neg h]
        push_neg at h
        refine List.pairwise_cons.mpr ⟨?_, hl⟩
        intro y hy
        rcases List.mem_cons.mp hy with rfl | hy'
        · exact h
        · exact le_trans (hq y hy') h

theorem sortDesc_sorted {α : Type} (l : List (Scored α)) :
    List.Pairwise (fun a b : Scored α => b.2 ≤ a.2) (sortDesc l) := by
  induction l with
  | nil => simp [sortDesc]
  | cons x xs ih => exact insertDesc_sorted x ih

/-- Inserting never reorders equal scores: restricted to any fixed score
`s`, insertion agrees with consing at the front only when the score is
`s` itself, and the relative order of the old elements is kept. -/
theorem filter_insertDesc {α : Type} (x : Scored α) (l : List (Scored α)) (s : ℚ) :
    (insertDesc x l).filter (fun p => p.2 = s) =
      (x :: l).filter (fun p => p.2 = s) := by
  induction l with
  | nil => simp [insertDesc]
  | cons q rest ih =>
      by_cases h : x.2 < q.2
      · simp only [insertDesc, if_pos h]
        by_cases hq : q.2 = s
        · have hx : ¬ x.2 = s := by
            intro hx
            exact absurd (hx ▸ h) (by simp [hq])
          simp [List.filter_cons, hq, hx] at ih ⊢
          simpa [hx] using ih
        · simp [List.filter_cons, hq] at ih ⊢
          exact ih
      · simp [insertDesc, if_neg h]

theorem filter_sortDesc {α : Type} (l : List (Scored α)) (s : ℚ) :
    (sortDesc l).filter (fun p => p.2 = s) = l.filter (fun p => p.2 = s) := by
  induction l with
  | nil => simp [sortDesc]
  | cons x xs ih =>
      calc (insertDesc x (sortDesc xs)).filter (fun p => p.2 = s)
          = (x :: sortDesc xs).filter (fun p => p.2 = s) :=
            filter_insertDesc x (sortDesc xs) s
        _ = (x :: xs).filter (fun p => p.2 = s) := by
            by_cases hx : x.2 = s <;> simp [List.filter_cons, hx, ih]

/-! ## Record store and daemon operations

Modelled from the spec: `daemon/server.py` (the Flask server holding
`store`, `recall`, `health` and the SQLite record store) is absent from
the repository; only its README description, its configuration table and
its test suite are in the tree.  The model follows the spec's §3–§4.6:
a durable table of learning records, monotone id assignment, dedup via
`topK` at threshold `duplicateThreshold`, recall via `topK` at threshold
`minSimilarity` truncated to `maxResults`, validation of empty inputs,
and graceful degradation of `recall` on embedding-provider failure. -/

/-- A persisted learning record (spec §3, README schema `learnings`). -/
structure LearningRecord where
  id : ℕ
  type : String
  content : String
  context : Option String
  embedding : Vec
  confidence : ℚ
  sessionSource : Option String
  createdAt : ℕ
deriving DecidableEq, Repr

/-- Daemon configuration (README `daemon/config.json`). -/
structure Config where
  minSimilarity : ℚ
  maxResults : ℕ
  duplicateThreshold : ℚ
deriving DecidableEq, Repr

/-- The README's documented defaults: `minSimilarity` 0.45,
`maxResults` 3, `duplicateThreshold` 0.92. -/
def defaultConfig : Config :=
  { minSimilarity := 45/100, maxResults := 3, duplicateThreshold := 92/100 }

/-- The durable store: the record table plus the next id to assign
(monotone, never reused — spec §3 invariants). -/
structure Store where
  records : List LearningRecord
  nextId : ℕ
deriving DecidableEq, Repr

/-- The empty store; ids start at 1 as in the SQLite table. -/
def emptyStore : Store := { records := [], nextId := 1 }

/-- A `store` request (README `/store` body). -/
structure StoreRequest where
  type : String
  content : String
  context : Option String
  confidence : Option ℚ
  sessionSource : Option String
deriving DecidableEq, Repr

/-- Outcome tag of a successful `store` call. -/
inductive StoreStatus
  | stored
  | duplicate
deriving DecidableEq, Repr

/-- Response of a successful `store` call: the status together with the
id of the new record (`stored`) or of the matched record (`duplicate`). -/
structure StoreResponse where
  status : StoreStatus
  id : ℕ
deriving DecidableEq, Repr

/-- The spec's error taxonomy (§7), restricted to what the modelled
operations can raise. -/
inductive DaemonError
  | validationError
  | embeddingUnavailable
deriving DecidableEq, Repr

/-- A recall result: the non-persisted projection `{type, content,
similarity}` (spec §3); embeddings are never returned. -/
structure RecallResult where
  type : String
  content : String
  similarity : ℚ
deriving DecidableEq, Repr

/-- Modelled from the spec (§4.4, §4.6, `daemon/server.py` absent): the
`store` operation.  Empty content is rejected with
`ValidationError` and no state change (§4.6); an unavailable embedding provider
(`embedResult = none`) fails the single request with no state change;
otherwise the dedup policy runs `topK` with `k = 1` at
`duplicateThreshold` over the existing records — a match rejects the
candidate and reports `duplicate` with the matched id, leaving the store
untouched, and otherwise a fresh record is appended under `nextId`. -/
def storeOp (sim : Vec → Vec → ℚ) (cfg : Config) (st : Store)
    (req : StoreRequest) (embedResult : Option Vec) (now : ℕ) :
    Except DaemonError StoreResponse × Store :=
  if req.content = "" then
    (.error .validationError, st)
  else
    match embedResult with
    | none => (.error .embeddingUnavailable, st)
    | some v =>
        match topK sim v (st.records.map (fun r => (r, r.embedding)))
            1 cfg.duplicateThreshold with
        | (m, _) :: _ => (.ok ⟨.duplicate, m.id⟩, st)
        | [] =>
            let newRec : LearningRecord :=
              { id := st.nextId, type := req.type, content := req.content,
                context := req.context,
                confidence := req.confidence.getD (9/10),
                sessionSource := req.sessionSource,
                embedding := v, createdAt := now }
            (.ok ⟨.stored, st.nextId⟩,
              { records := st.records ++ [newRec], nextId := st.nextId + 1 })

/-- Modelled from the spec (§4.5, §4.6, `daemon/server.py` absent): the
`recall` operation.  Empty query text is rejected with
`ValidationError` (§4.6); embedding-provider failure degrades to the empty
result set; otherwise `topK` at `minSimilarity` truncated to
`maxResults`, projected to `{type, content, similarity}`. -/
def recallOp (sim : Vec → Vec → ℚ) (cfg : Config) (st : Store)
    (queryText : String) (embedResult : Option Vec) :
    Except DaemonError (List RecallResult) :=
  if queryText = "" then
    .error .validationError
  else
    match embedResult with
    | none => .ok []
    | some qv =>
        .ok ((topK sim qv (st.records.map (fun r => (r, r.embedding)))
            cfg.maxResults cfg.minSimilarity).map
          (fun p => ⟨p.1.type, p.1.content, p.2⟩))

/-- Modelled from the spec (§4.3): delete a record by id; a missing id
is a no-op.  The id counter is untouched, so deleted ids are not
reissued. -/
def deleteById (st : Store) (i : ℕ) : Store :=
  { records := st.records.filter (fun r => r.id ≠ i), nextId := st.nextId }

/-! ## Health probe -/

/-- A JSON-ish value, enough to model the health endpoint's response
object. -/
inductive JVal
  | jb (b : Bool)
  | js (s : String)
deriving DecidableEq, Repr

/-- Modelled from the spec and the repository's test suite:
`daemon/server.py` (the health handler) is absent; the response is a
JSON object whose keys are the ones `tests/test-semantic-memory.sh`
reads — it checks `.ollama == true` for embedding-provider
reachability and reads the storage path from `.db_path`. -/
def healthResponse (ollamaUp : Bool) (dbPath : String) :
    List (String × JVal) :=
  [("ollama", .jb ollamaUp), ("db_path", .js dbPath)]

/-! ## PreToolUse hook (hooks/pre-tool-use.sh)

Embedded from the source script: configuration and curl plumbing are
abstracted into an input record carrying what the script reads from its
environment (extracted thinking, the state file's stored hash, daemon
health, and the daemon's recall response). -/

/-- The tool names the PreToolUse hook's `case` filter lets through
(read-only tools); every other tool name exits 0 immediately. -/
def readOnlyTools : List String :=
  ["Read", "Grep", "Glob", "Task", "WebSearch", "WebFetch"]

/-- Input of one PreToolUse hook invocation, with the script's external
observations made explicit. -/
structure PreToolUseInput where
  toolName : String
  /-- Thinking/text extracted from the last assistant message
  (`""` when extraction found nothing). -/
  thinking : String
  /-- md5 hash of the extracted thinking. -/
  thinkingHash : String
  /-- Hash recorded in the state file for this session, if any. -/
  lastHash : Option String
  /-- Whether the daemon health check succeeded. -/
  daemonHealthy : Bool
  /-- Memories the daemon's `/recall` returns when queried. -/
  recallResponse : List RecallResult
deriving DecidableEq, Repr

/-- Observable outcome of the hook process: a silent exit 0, or exit 0
with an injection payload on stdout. -/
inductive HookOutput
  | silent
  | inject (memories : List RecallResult)
deriving DecidableEq, Repr

/-- The PreToolUse hook's control flow, embedded from the script: the
tool-name `case` filter, the empty-thinking early exit, the
hash-unchanged early exit, the daemon health gate, then the recall
query; an empty memory list exits silently, otherwise the memories are
injected.  The boolean records whether the `/recall` query was
attempted. -/
def preToolUse (inp : PreToolUseInput) : Bool × HookOutput :=
  if ¬ readOnlyTools.contains inp.toolName then (false, .silent)
  else if inp.thinking = "" then (false, .silent)
  else if inp.lastHash = some inp.thinkingHash then (false, .silent)
  else if ¬ inp.daemonHealthy then (false, .silent)
  else if inp.recallResponse.isEmpty then (true, .silent)
  else (true, .inject inp.recallResponse)

/-! ## PreCompact chunking (hooks/pre-compact.sh, CHUNK_SCRIPT)

Embedded from the source: Python strings are modelled as `List Char`
(`len` is `List.length`, `strip` removes whitespace from both ends),
and the section loop is the script's loop over
`content.split("\n---\n")` with accumulator `current_chunk` and output
list `chunks`. -/

/-- A Python string, as a list of characters. -/
abbrev PyStr := List Char

/-- Python `str.strip()`: drop whitespace from both ends. -/
def pyStrip (s : PyStr) : PyStr :=
  ((s.dropWhile Char.isWhitespace).reverse.dropWhile Char.isWhitespace).reverse

/-- The section separator `"\n---\n"` the chunker re-inserts between
sections of one chunk (5 characters). -/
def sepMark : PyStr := ['\n', '-', '-', '-', '\n']

/-- The CHUNK_SCRIPT section loop.  For each section: strip it; skip it
if blank; if appending it would leave `current` over `chunkSize` and
`current` is non-empty, flush `current` (stripped) as a chunk and start
over from this section; otherwise append it to `current` behind a
`"\n---\n"` separator (or start `current` with it).  At the end the
remaining `current` is flushed if non-blank. -/
def chunkGo (chunkSize : ℕ) : List PyStr → PyStr → List PyStr → List PyStr
  | [], current, chunks =>
      if pyStrip current = [] then chunks else chunks ++ [pyStrip current]
  | sec :: rest, current, chunks =>
      let s := pyStrip sec
      if s = [] then chunkGo chunkSize rest current chunks
      else if chunkSize < current.length + s.length ∧ current ≠ [] then
        chunkGo chunkSize rest s (chunks ++ [pyStrip current])
      else
        chunkGo chunkSize rest
          (if current = [] then s else current ++ sepMark ++ s) chunks

/-- The chunker over the list of sections obtained by splitting the
transcript on `"\n---\n"`. -/
def buildChunks (chunkSize : ℕ) (sections : List PyStr) : List PyStr :=
  chunkGo chunkSize sections [] []

/-- Join a group of sections exactly the way the loop's accumulator
does: with a `"\n---\n"` separator between consecutive sections. -/
def joinSep : List PyStr → PyStr
  | [] => []
  | [s] => s
  | s :: rest => s ++ sepMark ++ joinSep rest

/-! ### Facts about stripping and joining -/

/-- A string with no whitespace at either end (what `strip` produces). -/
def Trimmed (s : PyStr) : Prop :=
  (∀ c ∈ s.head?, ¬ c.isWhitespace) ∧ ∀ c ∈ s.getLast?, ¬ c.isWhitespace

theorem head?_dropWhile (p : Char → Bool) (m : PyStr) :
    ∀ c ∈ (m.dropWhile p).head?, ¬ p c := by
  induction m with
  | nil => simp [List.dropWhile]
  | cons a t ih =>
      by_cases h : p a
      · simpa [List.dropWhile_cons, h] using ih
      · simp [List.dropWhile_cons, h]

theorem dropWhile_eq_self_of_head (p : Char → Bool) (m : PyStr)
    (h : ∀ c ∈ m.head?, ¬ p c) : m.dropWhile p = m := by
  cases m with
  | nil => rfl
  | cons a t =>
      have : ¬ p a := h a (by simp)
      simp [List.dropWhile_cons, this]

theorem pyStrip_eq_self {s : PyStr} (h : Trimmed s) : pyStrip s = s := by
  unfold pyStrip
  rw [dropWhile_eq_self_of_head _ _ h.1]
  rw [dropWhile_eq_self_of_head _ _ (by simpa [List.head?_reverse] using h.2)]
  exact s.reverse_reverse

theorem trimmed_pyStrip (s : PyStr) : Trimmed (pyStrip s) := by
  constructor
  · intro c hc
    -- the head survives the right strip and was cleared by the left strip
    obtain ⟨u, hu⟩ :=
      List.dropWhile_suffix (l := (s.dropWhile Char.isWhitespace).reverse)
        Char.isWhitespace
    have hs : pyStrip s ++ u.reverse = s.dropWhile Char.isWhitespace := by
      have := congrArg List.reverse hu
      simpa [pyStrip, List.reverse_append] using this
    apply head?_dropWhile Char.isWhitespace s c
    rw [← hs]
    rcases hps : pyStrip s with _ | ⟨a, t⟩
    · rw [hps] at hc; simp at hc
    · rw [hps] at hc; simp at hc
      simpa [List.head?] using hc
  · intro c hc
    have hc' : c ∈ ((s.dropWhile Char.isWhitespace).reverse.dropWhile
        Char.isWhitespace).head? := by
      simpa [pyStrip, List.getLast?_reverse] using hc
    exact head?_dropWhile Char.isWhitespace _ c hc'

theorem trimmed_nil : Trimmed ([] : PyStr) := by
  constructor <;> simp

/-- A stripped section: trimmed at both ends and non-blank. -/
def SecOk (s : PyStr) : Prop := Trimmed s ∧ s ≠ []

theorem secOk_pyStrip {s : PyStr} (h : pyStrip s ≠ []) : SecOk (pyStrip s) :=
  ⟨trimmed_pyStrip s, h⟩

theorem joinSep_cons_cons (s r : PyStr) (rs : List PyStr) :
    joinSep (s :: r :: rs) = s ++ sepMark ++ joinSep (r :: rs) := rfl

theorem joinSep_ne_nil {l : List PyStr} (hne : l ≠ [])
    (h : ∀ s ∈ l, s ≠ []) : joinSep l ≠ [] := by
  match l with
  | [] => exact absurd rfl hne
  | [s] => exact h s (by simp)
  | s :: r :: rs =>
      rw [joinSep_cons_cons]
      have : s ≠ [] := h s (by simp)
      simp [this]

theorem trimmed_joinSep {l : List PyStr} (h : ∀ s ∈ l, SecOk s) :
    Trimmed (joinSep l) := by
  induction l with
  | nil => exact trimmed_nil
  | cons s rest ih =>
      cases rest with
      | nil => exact (h s (by simp)).1
      | cons r rs =>
          have hs := h s (by simp)
          have hrest : ∀ t ∈ r :: rs, SecOk t := fun t ht => h t (by simp [ht])
          have hjr : joinSep (r :: rs) ≠ [] :=
            joinSep_ne_nil (by simp) (fun t ht => (hrest t ht).2)
          have htail := ih hrest
          constructor
          · intro c hc
            rw [joinSep_cons_cons] at hc
            rw [List.head?_append_of_ne_nil, List.head?_append_of_ne_nil] at hc
            · exact hs.1.1 c hc
            · exact hs.2
            · simp [hs.2]
          · intro c hc
            rw [joinSep_cons_cons, List.append_assoc] at hc
            rw [List.getLast?_append_of_ne_nil _ (by simp [hjr]),
              List.getLast?_append_of_ne_nil _ hjr] at hc
            exact htail.2 c hc

theorem joinSep_concat {l : List PyStr} (s : PyStr) (hne : l ≠ []) :
    joinSep (l ++ [s]) = joinSep l ++ sepMark ++ s := by
  induction l with
  | nil => exact absurd rfl hne
  | cons a rest ih =>
      cases rest with
      | nil => simp [joinSep]
      | cons b bs =>
          have ih' : joinSep ((b :: bs) ++ [s]) = joinSep (b :: bs) ++ sepMark ++ s :=
            ih (by simp)
          have h1 : joinSep ((a :: b :: bs) ++ [s])
              = a ++ sepMark ++ joinSep ((b :: bs) ++ [s]) := by
            simp only [List.cons_append]
            exact joinSep_cons_cons a b (bs ++ [s])
          rw [h1, ih', joinSep_cons_cons]
          simp [List.append_assoc]

/-- The chunk-loop invariant for an emitted chunk: a non-empty group of
stripped non-blank sections, and any chunk holding at least two sections
fits in `chunkSize` plus one 5-character separator (the loop's size
check ignores the separator the join re-inserts). -/
def GoodChunk (cs : ℕ) (g : List PyStr) : Prop :=
  g ≠ [] ∧ (∀ s ∈ g, SecOk s) ∧ (2 ≤ g.length → (joinSep g).length ≤ cs + 5)

theorem chunkGo_spec (cs : ℕ) (secs : List PyStr) :
    ∀ (acc : List PyStr) (groups : List (List PyStr)),
      (∀ s ∈ acc, SecOk s) →
      (2 ≤ acc.length → (joinSep acc).length ≤ cs + 5) →
      (∀ g ∈ groups, GoodChunk cs g) →
      ∃ groups' : List (List PyStr),
        (∀ g ∈ groups', GoodChunk cs g) ∧
        groups'.flatten = groups.flatten ++ acc ++
          ((secs.map pyStrip).filter (fun s => !s.isEmpty)) ∧
        chunkGo cs secs (joinSep acc) (groups.map joinSep) = groups'.map joinSep := by
  induction secs with
  | nil =>
      intro acc groups hacc hbound hgroups
      by_cases h : acc = []
      · subst h
        refine ⟨groups, hgroups, by simp, ?_⟩
        simp [chunkGo, joinSep, pyStrip]
      · have hne : joinSep acc ≠ [] := joinSep_ne_nil h (fun s hs => (hacc s hs).2)
        have htr : pyStrip (joinSep acc) = joinSep acc :=
          pyStrip_eq_self (trimmed_joinSep hacc)
        refine ⟨groups ++ [acc], ?_, by simp, ?_⟩
        · intro g hg
          rcases List.mem_append.mp hg with hg | hg
          · exact hgroups g hg
          · simp only [List.mem_singleton] at hg
            subst hg
            exact ⟨h, hacc, hbound⟩
        · simp [chunkGo, htr, hne]
  | cons sec rest ih =>
      intro acc groups hacc hbound hgroups
      by_cases hs : pyStrip sec = []
      · obtain ⟨g', h1, h2, h3⟩ := ih acc groups hacc hbound hgroups
        refine ⟨g', h1, by simpa [hs] using h2, ?_⟩
        simpa [chunkGo, hs] using h3
      · have hsE : (pyStrip sec).isEmpty = false := by simp [hs]
        by_cases hflush :
            cs < (joinSep acc).length + (pyStrip sec).length ∧ joinSep acc ≠ []
        · have haccne : acc ≠ [] := by
            intro h
            subst h
            exact hflush.2 rfl
          have htr : pyStrip (joinSep acc) = joinSep acc :=
            pyStrip_eq_self (trimmed_joinSep hacc)
          obtain ⟨g', h1, h2, h3⟩ := ih [pyStrip sec] (groups ++ [acc])
            (by
              intro s hsm
              simp only [List.mem_singleton] at hsm
              subst hsm
              exact secOk_pyStrip hs)
            (by intro hlen; simp at hlen)
            (by
              intro g hg
              rcases List.mem_append.mp hg with hg | hg
              · exact hgroups g hg
              · simp only [List.mem_singleton] at hg
                subst hg
                exact ⟨haccne, hacc, hbound⟩)
          refine ⟨g', h1, ?_, ?_⟩
          · rw [h2]
            simp [hsE, List.flatten_append, List.append_assoc]
          · have hstep : chunkGo cs (sec :: rest) (joinSep acc) (groups.map joinSep)
                = chunkGo cs rest (pyStrip sec)
                  (groups.map joinSep ++ [pyStrip (joinSep acc)]) := by
              simp [chunkGo, hs, hflush]
            rw [hstep, htr]
            simpa [joinSep] using h3
        · by_cases haccnil : acc = []
          · subst haccnil
            obtain ⟨g', h1, h2, h3⟩ := ih [pyStrip sec] groups
              (by
                intro s hsm
                simp only [List.mem_singleton] at hsm
                subst hsm
                exact secOk_pyStrip hs)
              (by intro hlen; simp at hlen)
              hgroups
            refine ⟨g', h1, ?_, ?_⟩
            · rw [h2]
              simp [hsE]
            · have hstep : chunkGo cs (sec :: rest) (joinSep []) (groups.map joinSep)
                  = chunkGo cs rest (pyStrip sec) (groups.map joinSep) := by
                simp [chunkGo, joinSep, hs, hflush]
              rw [hstep]
              simpa [joinSep] using h3
          · have hne : joinSep acc ≠ [] :=
              joinSep_ne_nil haccnil (fun s hsm => (hacc s hsm).2)
            have hfit : (joinSep acc).length + (pyStrip sec).length ≤ cs := by
              by_contra hlt
              push_neg at hlt
              exact hflush ⟨hlt, hne⟩
            obtain ⟨g', h1, h2, h3⟩ := ih (acc ++ [pyStrip sec]) groups
              (by
                intro s hsm
                rcases List.mem_append.mp hsm with hsm | hsm
                · exact hacc s hsm
                · simp only [List.mem_singleton] at hsm
                  subst hsm
                  exact secOk_pyStrip hs)
              (by
                intro _
                rw [joinSep_concat _ haccnil]
                simp only [List.length_append, sepMark, List.length_cons,
                  List.length_nil]
                omega)
              hgroups
            refine ⟨g', h1, ?_, ?_⟩
            · rw [h2]
              simp [hsE, List.append_assoc]
            · have hstep : chunkGo cs (sec :: rest) (joinSep acc) (groups.map joinSep)
                  = chunkGo cs rest (joinSep acc ++ sepMark ++ pyStrip sec)
                    (groups.map joinSep) := by
                have hnotlt : ¬ cs < (joinSep acc).length + (pyStrip sec).length := by
                  omega
                simp [chunkGo, hs, hnotlt, hne]
              rw [hstep, ← joinSep_concat _ haccnil]
              exact h3

/-- **C10** (amended).  The PreCompact chunking step partitions the
transcript: every section that is non-blank after stripping appears
(stripped) in exactly one chunk, the chunks keep the sections' original
order, nothing is dropped or duplicated, and each chunk is the
separator-join of its group of sections.  A chunk holding two or more
sections may exceed `chunk_size` by at most the 5-character `"\n---\n"`
separator (which the loop's size check does not count); beyond that, a
chunk exceeds `chunk_size` only when it is a single section longer than
`chunk_size`. -/
theorem precompact_chunking_partition (cs : ℕ) (sections : List PyStr) :
    ∃ groups : List (List PyStr),
      groups.flatten = (sections.map pyStrip).filter (fun s => !s.isEmpty) ∧
      buildChunks cs sections = groups.map joinSep ∧
      ∀ g ∈ groups, g ≠ [] ∧
        (2 ≤ g.length → (joinSep g).length ≤ cs + sepMark.length) := by
  obtain ⟨g', h1, h2, h3⟩ := chunkGo_spec cs sections [] []
    (by simp) (by simp) (by simp)
  refine ⟨g', by simpa using h2, ?_, ?_⟩
  · simpa [buildChunks, joinSep] using h3
  · intro g hg
    obtain ⟨hne, _, hb⟩ := h1 g hg
    exact ⟨hne, by simpa [sepMark] using hb⟩

/-- Two sections of 5 characters each against `chunk_size = 10`: the
loop's size check (`5 + 5 > 10` is false) merges them, and the emitted
chunk has 15 characters. -/
def cxSections : List PyStr :=
  [['a', 'a', 'a', 'a', 'a'], ['b', 'b', 'b', 'b', 'b']]

/-- **C10** counterexample: every section fits in `chunk_size = 10`,
yet the chunker emits a chunk longer than 10 — the claim that a chunk
exceeds `chunk_size` only when a single section alone is longer than
`chunk_size` is false. -/
theorem precompact_chunking_cx :
    (∀ s ∈ cxSections, (pyStrip s).length ≤ 10) ∧
    ∃ chnk ∈ buildChunks 10 cxSections, 10 < chnk.length := by
  decide

/-! ## Helper lemmas about `topK` over the record table -/

theorem mem_topK {α : Type} {sim : Vec → Vec → ℚ} {q : Vec}
    {cands : List (α × Vec)} {k : ℕ} {m : ℚ} {p : Scored α}
    (hp : p ∈ topK sim q cands k m) :
    p ∈ scoreAll sim q cands ∧ m ≤ p.2 := by
  have h1 : p ∈ sortDesc ((scoreAll sim q cands).filter (fun x => m ≤ x.2)) :=
    List.take_subset _ _ hp
  have h2 := (sortDesc_perm _).mem_iff.mp h1
  have h3 := List.mem_filter.mp h2
  exact ⟨h3.1, by simpa using h3.2⟩

theorem scoreAll_records {sim : Vec → Vec → ℚ} {v : Vec}
    {records : List LearningRecord} {p : Scored LearningRecord}
    (hp : p ∈ scoreAll sim v (records.map (fun r => (r, r.embedding)))) :
    ∃ r ∈ records, p = (r, sim v r.embedding) := by
  simp only [scoreAll, List.map_map, List.mem_map, Function.comp] at hp
  obtain ⟨r, hr, hrp⟩ := hp
  exact ⟨r, hr, hrp.symm⟩

theorem mem_scoreAll_records {sim : Vec → Vec → ℚ} {v : Vec}
    {records : List LearningRecord} {r : LearningRecord} (hr : r ∈ records) :
    (r, sim v r.embedding) ∈
      scoreAll sim v (records.map (fun r => (r, r.embedding))) := by
  simp only [scoreAll, List.map_map, List.mem_map, Function.comp]
  exact ⟨r, hr, rfl⟩

theorem topK_ne_nil {sim : Vec → Vec → ℚ} {v : Vec}
    {records : List LearningRecord} {thr : ℚ} {r : LearningRecord}
    (hr : r ∈ records) (hthr : thr ≤ sim v r.embedding) {k : ℕ} (hk : k ≠ 0) :
    topK sim v (records.map (fun r => (r, r.embedding))) k thr ≠ [] := by
  unfold topK
  intro hemp
  have hmem : (r, sim v r.embedding) ∈
      (scoreAll sim v (records.map (fun r => (r, r.embedding)))).filter
        (fun p => thr ≤ p.2) :=
    List.mem_filter.mpr ⟨mem_scoreAll_records hr, by simpa using hthr⟩
  have hmem' := (sortDesc_perm _).mem_iff.mpr hmem
  have hne := List.ne_nil_of_mem hmem'
  rcases List.take_eq_nil_iff.mp hemp with h | h
  · exact hk h
  · exact hne h

/-! ## Reachable daemon states

The history list records every id ever handed out by a successful
`stored` insert; `duplicate`, validation and provider-failure outcomes
leave the store untouched, so only inserts and deletes appear as
steps. -/

inductive Reach (sim : Vec → Vec → ℚ) (cfg : Config) : Store → List ℕ → Prop
  | init : Reach sim cfg emptyStore []
  | storeStep {st : Store} {h : List ℕ} {req : StoreRequest} {v : Vec}
      {now i : ℕ} {st' : Store} :
      Reach sim cfg st h →
      storeOp sim cfg st req (some v) now = (.ok ⟨.stored, i⟩, st') →
      Reach sim cfg st' (h ++ [i])
  | deleteStep {st : Store} {h : List ℕ} {i : ℕ} :
      Reach sim cfg st h →
      Reach sim cfg (deleteById st i) h

theorem storeOp_stored_inv {sim : Vec → Vec → ℚ} {cfg : Config} {st : Store}
    {req : StoreRequest} {er : Option Vec} {now i : ℕ} {st' : Store}
    (h : storeOp sim cfg st req er now = (.ok ⟨.stored, i⟩, st')) :
    i = st.nextId ∧ st'.nextId = st.nextId + 1 ∧
      ∀ r ∈ st'.records, r.id = st.nextId ∨ r ∈ st.records := by
  unfold storeOp at h
  by_cases hc : req.content = ""
  · rw [if_pos hc] at h
    exact absurd (congrArg Prod.fst h) (by simp)
  · rw [if_neg hc] at h
    cases er with
    | none => exact absurd (congrArg Prod.fst h) (by simp)
    | some v =>
        dsimp only at h
        rcases e : topK sim v (st.records.map (fun r => (r, r.embedding))) 1
            cfg.duplicateThreshold with _ | ⟨p, tl⟩
        · rw [e] at h
          simp only [Prod.mk.injEq, Except.ok.injEq, StoreResponse.mk.injEq] at h
          obtain ⟨⟨_, hid⟩, hst⟩ := h
          subst hst
          refine ⟨hid.symm, rfl, ?_⟩
          intro r hrm
          rcases List.mem_append.mp hrm with hrm | hrm
          · exact Or.inr hrm
          · simp only [List.mem_singleton] at hrm
            subst hrm
            exact Or.inl rfl
        · rw [e] at h
          simp only [Prod.mk.injEq, Except.ok.injEq, StoreResponse.mk.injEq] at h
          exact absurd h.1.1 (by simp)

theorem reach_ids_lt {sim : Vec → Vec → ℚ} {cfg : Config} {st : Store}
    {h : List ℕ} (hr : Reach sim cfg st h) :
    (∀ i ∈ h, i < st.nextId) ∧ ∀ r ∈ st.records, r.id < st.nextId := by
  induction hr with
  | init => simp [emptyStore]
  | storeStep hrch heq ih =>
      obtain ⟨hid, hnext, hrec⟩ := storeOp_stored_inv heq
      constructor
      · intro j hj
        rcases List.mem_append.mp hj with hj | hj
        · have := ih.1 j hj
          omega
        · simp only [List.mem_singleton] at hj
          subst hj
          omega
      · intro r hrm
        rcases hrec r hrm with h1 | h1
        · omega
        · have := ih.2 r h1
          omega
  | deleteStep hrch ih =>
      refine ⟨fun j hj => ?_, fun r hrm => ?_⟩
      · simpa [deleteById] using ih.1 j hj
      · have hrm' : r ∈ _ := List.mem_of_mem_filter hrm
        simpa [deleteById] using ih.2 r hrm'

/-! ## The claims about the daemon -/

/-- **C1**.  A `store` call whose candidate embedding is more similar
than `duplicateThreshold` to some existing record reports
`duplicate` with the id of a matched existing record (one whose
similarity clears the threshold), and the store is returned completely
unchanged: the candidate is not persisted, the row count is the same and
no field of any existing record — in particular of the matched one — is
modified. -/
theorem store_duplicate_frame (sim : Vec → Vec → ℚ) (cfg : Config) (st : Store)
    (req : StoreRequest) (v : Vec) (now : ℕ) (r : LearningRecord)
    (hr : r ∈ st.records)
    (hsim : cfg.duplicateThreshold < sim v r.embedding)
    (hc : req.content ≠ "") :
    ∃ m ∈ st.records, cfg.duplicateThreshold ≤ sim v m.embedding ∧
      storeOp sim cfg st req (some v) now = (.ok ⟨.duplicate, m.id⟩, st) := by
  have hne := topK_ne_nil hr (le_of_lt hsim) (k := 1) one_ne_zero
  rcases e : topK sim v (st.records.map (fun r => (r, r.embedding))) 1
      cfg.duplicateThreshold with _ | ⟨p, tl⟩
  · exact absurd e hne
  · have hpmem : p ∈ topK sim v (st.records.map (fun r => (r, r.embedding))) 1
        cfg.duplicateThreshold := by
      rw [e]
      exact List.mem_cons_self _ _
    obtain ⟨hsc, hth⟩ := mem_topK hpmem
    obtain ⟨m, hm, rfl⟩ := scoreAll_records hsc
    refine ⟨m, hm, hth, ?_⟩
    simp [storeOp, hc, e]

/-- **C2**.  Every result `recall` returns has similarity at least
`minSimilarity`: results below the threshold are never returned. -/
theorem recall_min_similarity (sim : Vec → Vec → ℚ) (cfg : Config) (st : Store)
    (q : String) (er : Option Vec) (ms : List RecallResult)
    (h : recallOp sim cfg st q er = .ok ms) :
    ∀ x ∈ ms, cfg.minSimilarity ≤ x.similarity := by
  intro x hx
  unfold recallOp at h
  by_cases hq : q = ""
  · rw [if_pos hq] at h
    exact absurd h (by simp)
  · rw [if_neg hq] at h
    cases er with
    | none =>
        simp only [Except.ok.injEq] at h
        subst h
        simp at hx
    | some qv =>
        simp only [Except.ok.injEq] at h
        subst h
        obtain ⟨p, hp, rfl⟩ := List.mem_map.mp hx
        exact (mem_topK hp).2

/-- **C3**.  `recall` returns at most `maxResults` entries, sorted by
non-increasing similarity. -/
theorem recall_sorted_capped (sim : Vec → Vec → ℚ) (cfg : Config) (st : Store)
    (q : String) (er : Option Vec) (ms : List RecallResult)
    (h : recallOp sim cfg st q er = .ok ms) :
    ms.length ≤ cfg.maxResults ∧
      List.Pairwise (fun a b : RecallResult => b.similarity ≤ a.similarity) ms := by
  unfold recallOp at h
  by_cases hq : q = ""
  · rw [if_pos hq] at h
    exact absurd h (by simp)
  · rw [if_neg hq] at h
    cases er with
    | none =>
        simp only [Except.ok.injEq] at h
        subst h
        simp
    | some qv =>
        simp only [Except.ok.injEq] at h
        subst h
        constructor
        · rw [List.length_map]
          exact le_trans (List.length_take_le _ _) le_rfl
        · refine List.Pairwise.map _ (fun a b hab => hab) ?_
          exact List.Pairwise.sublist (List.take_sublist _ _) (sortDesc_sorted _)

/-- **C4**.  `topK` returns exactly the candidates scoring at least
`minScore`: its output is the `k`-truncation of a list that is a
permutation of the kept scored candidates, is sorted by non-increasing
score, and preserves the candidates' original relative order at every
tied score (stable sort). -/
theorem topK_exact (α : Type) (sim : Vec → Vec → ℚ) (q : Vec)
    (cands : List (α × Vec)) (k : ℕ) (minScore : ℚ) :
    List.Perm (sortDesc ((scoreAll sim q cands).filter (fun p => minScore ≤ p.2)))
        ((scoreAll sim q cands).filter (fun p => minScore ≤ p.2)) ∧
      List.Pairwise (fun a b : Scored α => b.2 ≤ a.2)
        (sortDesc ((scoreAll sim q cands).filter (fun p => minScore ≤ p.2))) ∧
      (∀ s : ℚ,
        (sortDesc ((scoreAll sim q cands).filter
            (fun p => minScore ≤ p.2))).filter (fun p => p.2 = s) =
          ((scoreAll sim q cands).filter (fun p => minScore ≤ p.2)).filter
            (fun p => p.2 = s)) ∧
      topK sim q cands k minScore =
        (sortDesc ((scoreAll sim q cands).filter
          (fun p => minScore ≤ p.2))).take k :=
  ⟨sortDesc_perm _, sortDesc_sorted _, fun s => filter_sortDesc _ s, rfl⟩

/-- **C5**.  When the embedding provider fails or times out during a
`recall` (the adapter returns no vector), the call degrades to the
empty result set instead of propagating the failure. -/
theorem recall_degrades_on_provider_failure (sim : Vec → Vec → ℚ) (cfg : Config)
    (st : Store) (q : String) (hq : q ≠ "") :
    recallOp sim cfg st q none = .ok [] := by
  simp [recallOp, hq]

/-- **C6**.  A `store` call that clears deduplication on a reachable
store returns `stored` with an id that was never assigned before — not
to any current record and not to any record later deleted (ids are
never reused). -/
theorem store_fresh_id (sim : Vec → Vec → ℚ) (cfg : Config) (st : Store)
    (h : List ℕ) (req : StoreRequest) (v : Vec) (now : ℕ)
    (hreach : Reach sim cfg st h)
    (hc : req.content ≠ "")
    (hdis : ∀ r ∈ st.records, sim v r.embedding < cfg.duplicateThreshold) :
    (storeOp sim cfg st req (some v) now).1 = .ok ⟨.stored, st.nextId⟩ ∧
      st.nextId ∉ h ∧ ∀ r ∈ st.records, r.id ≠ st.nextId := by
  have hkept : (scoreAll sim v (st.records.map (fun r => (r, r.embedding)))).filter
      (fun p => cfg.duplicateThreshold ≤ p.2) = [] := by
    rw [List.filter_eq_nil_iff]
    intro p hp
    obtain ⟨r, hrm, rfl⟩ := scoreAll_records hp
    simpa using not_le.mpr (hdis r hrm)
  have htk : topK sim v (st.records.map (fun r => (r, r.embedding))) 1
      cfg.duplicateThreshold = [] := by
    unfold topK
    rw [hkept]
    rfl
  refine ⟨?_, ?_, ?_⟩
  · simp [storeOp, hc, htk]
  · intro hmem
    have := (reach_ids_lt hreach).1 _ hmem
    omega
  · intro r hrm
    have := (reach_ids_lt hreach).2 r hrm
    omega

/-- **C7**.  A `store` call with empty content and a `recall` call with
empty query text both fail with `ValidationError`: the request is
rejected and the persisted store is left unchanged. -/
theorem validation_rejected (sim : Vec → Vec → ℚ) (cfg : Config) (st : Store)
    (req : StoreRequest) (er er₂ : Option Vec) (now : ℕ) (q : String)
    (hc : req.content = "") (hq : q = "") :
    storeOp sim cfg st req er now = (.error .validationError, st) ∧
      recallOp sim cfg st q er₂ = .error .validationError := by
  constructor
  · simp [storeOp, hc]
  · simp [recallOp, hq]

/-- **C8** counterexample.  At a concrete health probe, the response
object (whose keys are the ones the repository's own test suite reads)
has no field named `embeddingProviderReachable` and none named
`storagePath`: the claimed field names are absent. -/
theorem health_fields_cx :
    (healthResponse true "/home/user/.claude/memory.db").lookup
        "embeddingProviderReachable" = none ∧
      (healthResponse true "/home/user/.claude/memory.db").lookup
        "storagePath" = none := by
  decide

/-- **C8** (amended).  Every health response carries the
embedding-provider reachability as a boolean field named `ollama` and
the storage path as a string field named `db_path` — the names the
repository's test suite checks. -/
theorem health_fields (b : Bool) (p : String) :
    (healthResponse b p).lookup "ollama" = some (.jb b) ∧
      (healthResponse b p).lookup "db_path" = some (.js p) :=
  ⟨rfl, rfl⟩

/-- **C9**.  A PreToolUse hook invocation whose tool name is not one of
the read-only tools (Read, Grep, Glob, Task, WebSearch, WebFetch) exits
silently with status 0, no injection output and no recall query; and a
recall query is ever attempted only when the tool name is one of those
read-only tools. -/
theorem pretooluse_tool_filter (inp : PreToolUseInput)
    (h : readOnlyTools.contains inp.toolName = false) :
    preToolUse inp = (false, .silent) ∧
      ∀ jnp : PreToolUseInput, (preToolUse jnp).1 = true →
        readOnlyTools.contains jnp.toolName = true := by
  constructor
  · have h' : inp.toolName ∉ readOnlyTools := by simpa using h
    simp [preToolUse, h']
  · intro jnp hj
    by_contra hcon
    have hf : jnp.toolName ∉ readOnlyTools := by simpa using hcon
    simp [preToolUse, hf] at hj

/-! ## Concrete instances -/

/-- A constant similarity function, for concrete runs. -/
def simConst (c : ℚ) : Vec → Vec → ℚ := fun _ _ => c

/-- A small concrete configuration. -/
def cfgInt : Config :=
  { minSimilarity := 0, maxResults := 3, duplicateThreshold := 1 }

/-- A concrete stored record. -/
def sampleRec : LearningRecord :=
  { id := 7, type := "GOTCHA", content := "X strips variables before Y sees them",
    context := none, embedding := [1], confidence := 1, sessionSource := none,
    createdAt := 0 }

/-- A store holding one record. -/
def oneStore : Store := { records := [sampleRec], nextId := 8 }

/-- A concrete store request (a paraphrase of the stored record). -/
def sampleReq : StoreRequest :=
  { type := "GOTCHA", content := "Variables get stripped by X before reaching Y",
    context := none, confidence := none, sessionSource := none }

/-- A store request with empty content. -/
def emptyReq : StoreRequest :=
  { type := "TEST", content := "", context := none, confidence := none,
    sessionSource := none }

/-- A PreToolUse invocation for the write tool `Bash`. -/
def wBashInput : PreToolUseInput :=
  { toolName := "Bash", thinking := "thinking text", thinkingHash := "abc",
    lastHash := none, daemonHealthy := true, recallResponse := [] }

theorem store_duplicate_frame_witness :
    ∃ m ∈ oneStore.records, cfgInt.duplicateThreshold ≤ simConst 2 [1] m.embedding ∧
      storeOp (simConst 2) cfgInt oneStore sampleReq (some [1]) 0 =
        (.ok ⟨.duplicate, m.id⟩, oneStore) :=
  store_duplicate_frame (simConst 2) cfgInt oneStore sampleReq [1] 0 sampleRec
    (by simp [oneStore]) (by decide) (by decide)

theorem recall_min_similarity_witness :
    cfgInt.minSimilarity ≤
      (RecallResult.mk "GOTCHA" "X strips variables before Y sees them"
        1).similarity :=
  recall_min_similarity (simConst 1) cfgInt oneStore "q" (some [])
    [⟨"GOTCHA", "X strips variables before Y sees them", 1⟩] rfl
    ⟨"GOTCHA", "X strips variables before Y sees them", 1⟩ (by decide)

theorem recall_sorted_capped_witness :
    ([⟨"GOTCHA", "X strips variables before Y sees them", 1⟩] :
        List RecallResult).length ≤ cfgInt.maxResults ∧
      List.Pairwise (fun a b : RecallResult => b.similarity ≤ a.similarity)
        [⟨"GOTCHA", "X strips variables before Y sees them", 1⟩] :=
  recall_sorted_capped (simConst 1) cfgInt oneStore "q" (some [])
    [⟨"GOTCHA", "X strips variables before Y sees them", 1⟩] rfl

theorem recall_degrades_witness :
    recallOp (simConst 1) cfgInt oneStore "q" none = .ok [] :=
  recall_degrades_on_provider_failure (simConst 1) cfgInt oneStore "q" (by decide)

theorem store_fresh_id_witness :
    (storeOp (simConst 0) cfgInt emptyStore sampleReq (some []) 0).1 =
        .ok ⟨.stored, emptyStore.nextId⟩ ∧
      emptyStore.nextId ∉ ([] : List ℕ) ∧
      ∀ r ∈ emptyStore.records, r.id ≠ emptyStore.nextId :=
  store_fresh_id (simConst 0) cfgInt emptyStore [] sampleReq [] 0 Reach.init
    (by decide) (by simp [emptyStore])

theorem validation_rejected_witness :
    storeOp (simConst 1) cfgInt oneStore emptyReq none 0 =
        (.error .validationError, oneStore) ∧
      recallOp (simConst 1) cfgInt oneStore "" none = .error .validationError :=
  validation_rejected (simConst 1) cfgInt oneStore emptyReq none none 0 "" rfl rfl

theorem pretooluse_tool_filter_witness :
    preToolUse wBashInput = (false, .silent) ∧
      ∀ jnp : PreToolUseInput, (preToolUse jnp).1 = true →
        readOnlyTools.contains jnp.toolName = true :=
  pretooluse_tool_filter wBashInput (by decide)

end SemMem
